import Mathlib

/-!
A verification development for the core of the BBL434 Universal Plasmid Maker.

The repository's core modules (`markers_db.py`, `restriction_handler.py`,
`ori_finder.py`, `plasmid_builder.py`) are shallowly embedded here:
Python strings become `List Char`, the dictionary `markers_db` becomes an
ordered association list with unique keys, fallible lookups return `Option`,
and AT fractions (Python floats) are modelled in `ℚ` (every value compared is
a multiple of `1/window_size` or the literal `0.65`; on those values the
Python float comparisons agree with the exact rational ones).
-/

namespace PlasmidMaker

/-- Python `str.upper`, applied character-wise (`Char.toUpper` on ASCII). -/
def upStr (s : List Char) : List Char := s.map Char.toUpper

/-- One row of the parsed markers database (`markers_db[name]` in Python):
the dictionary `{category, name, recognition}` built by `parse_markers_tab`. -/
structure MarkerRec where
  category : List Char
  name : List Char
  recognition : List Char
deriving DecidableEq, Repr

/-- The markers database: a Python `dict` from marker short name to its record,
modelled as an ordered association list (insertion order is the iteration
order of the Python dict; keys are unique). -/
abbrev MarkersDB := List (List Char × MarkerRec)

/-- `enzyme_name in markers_db` / `markers_db[enzyme_name]`: the binding of an
exactly-equal key, if any. -/
def dbFind : MarkersDB → List Char → Option MarkerRec
  | [], _ => none
  | (k, v) :: rest, key => if k = key then some v else dbFind rest key

/-- Membership in the character class `[ATCG]`. -/
def isNucl (c : Char) : Bool := c = 'A' || c = 'T' || c = 'C' || c = 'G'

/-- `re.search(r'([ATCG]{4,})', text)` on an already-uppercased text:
the leftmost run of at least four consecutive `A`/`T`/`C`/`G` characters,
greedily extended to the whole run (`{4,}` is greedy). -/
def extractSiteRun : List Char → Option (List Char)
  | [] => none
  | c :: rest =>
    if 4 ≤ ((c :: rest).takeWhile isNucl).length then some ((c :: rest).takeWhile isNucl)
    else extractSiteRun rest

/-- The case-insensitive tier of `get_restriction_site_sequence`: iterate the
database in order and return the pattern mined from the first
case-insensitively matching key whose recognition text yields one. -/
def ciTier : MarkersDB → List Char → Option (List Char)
  | [], _ => none
  | (k, v) :: rest, enzyme_name =>
    if upStr k = upStr enzyme_name then
      match extractSiteRun (upStr v.recognition) with
      | some s => some s
      | none => ciTier rest enzyme_name
    else ciTier rest enzyme_name

/-- The `known_sites` fallback table of `get_restriction_site_sequence`. -/
def known_sites : List (List Char × List Char) :=
  [("ECORI".toList, "GAATTC".toList),
   ("BAMHI".toList, "GGATCC".toList),
   ("HINDIII".toList, "AAGCTT".toList),
   ("PSTI".toList, "CTGCAG".toList),
   ("KPRI".toList, "GGTACC".toList),
   ("SACI".toList, "GAGCTC".toList),
   ("SALI".toList, "GTCGAC".toList),
   ("XBAI".toList, "TCTAGA".toList),
   ("NOTI".toList, "GCGGCCGC".toList),
   ("SMAI".toList, "CCCGGG".toList),
   ("SPHI".toList, "GCATGC".toList)]

/-- `known_sites.get(enzyme_name.upper())`. -/
def knownFind : List (List Char × List Char) → List Char → Option (List Char)
  | [], _ => none
  | (k, v) :: rest, key => if k = key then some v else knownFind rest key

/-- `markers_db.get_restriction_site_sequence`: exact key match (mining the
first run of four or more of `ATCG` from the recognition text), then a
case-insensitive key match with the same mining, then the built-in table
keyed by the uppercased name.  Python's falsy test `if not site_sequence`
coincides with `none` here because every mined run has length at least 4 and
every built-in entry is non-empty. -/
def get_restriction_site_sequence (enzyme_name : List Char) (markers_db : MarkersDB) :
    Option (List Char) :=
  match
    (match dbFind markers_db enzyme_name with
     | some r => extractSiteRun (upStr r.recognition)
     | none => none) with
  | some s => some s
  | none =>
    match ciTier markers_db enzyme_name with
    | some s => some s
    | none => knownFind known_sites (upStr enzyme_name)

/-- Exact substring match of `pat` at position `p` of `hay`. -/
def matchesAt (hay pat : List Char) (p : Nat) : Bool := pat.isPrefixOf (hay.drop p)

/-- Python `hay.find(pat, start)`: the least position `p ≥ start` at which
`pat` occurs in `hay`, `none` when there is none. -/
def strFind (hay pat : List Char) (start : Nat) : Option Nat :=
  (List.range' start (hay.length + 1 - start)).find? (fun p => matchesAt hay pat p)

/-- The scan loop of `find_restriction_sites`: repeatedly `find` from `start`,
record the hit, and resume at the position one past the hit's start (so
overlapping occurrences are found).  `fuel` bounds the number of iterations;
the Python loop terminates because `start` strictly grows. -/
def findLoop (hay pat : List Char) : Nat → Nat → List Nat
  | _, 0 => []
  | start, fuel + 1 =>
    match strFind hay pat start with
    | none => []
    | some pos => pos :: findLoop hay pat (pos + 1) fuel

/-- `restriction_handler.find_restriction_sites`: resolve the enzyme's
recognition pattern (empty result when unresolved), uppercase both strings,
and collect all occurrence start positions. -/
def find_restriction_sites (sequence : List Char) (enzyme_name : List Char)
    (markers_db : MarkersDB) : List Nat :=
  match get_restriction_site_sequence enzyme_name markers_db with
  | none => []
  | some site_sequence =>
    findLoop (upStr sequence) (upStr site_sequence) 0 (sequence.length + 1)

/-- The positions accumulated into `sites_to_mutate` by
`delete_restriction_sites`: for every enzyme that resolves to a pattern,
every base position covered by any of its occurrences (full pattern width).
Python collects them into a set; here the raw list is kept and the set
semantics (deduplication) is applied where the set is iterated. -/
def sites_to_mutate (sequence : List Char) (enzymes_to_delete : List (List Char))
    (markers_db : MarkersDB) : List ℕ :=
  enzymes_to_delete.flatMap (fun enzyme =>
    match get_restriction_site_sequence enzyme markers_db with
    | none => []
    | some site_seq =>
      (find_restriction_sites sequence enzyme markers_db).flatMap
        (fun pos => (List.range site_seq.length).map (fun i => pos + i)))

/-- One iteration of the mutation loop of `delete_restriction_sites`:
skip out-of-range positions, read the base, and substitute by the fixed rule
`A→G`, `T→C`, `G→A`, `C→T`; anything else is left untouched. -/
def mutateBase (result : List Char) (pos : Nat) : List Char :=
  if result.length ≤ pos then result
  else
    if (result.getD pos ' ').toUpper = 'A' then result.set pos 'G'
    else if (result.getD pos ' ').toUpper = 'T' then result.set pos 'C'
    else if (result.getD pos ' ').toUpper = 'G' then result.set pos 'A'
    else if (result.getD pos ' ').toUpper = 'C' then result.set pos 'T'
    else result

/-- `restriction_handler.delete_restriction_sites`: mutate every marked
position, iterating `sorted(sites_to_mutate, reverse=True)` — here the
deduplicated ascending insertion sort of the marked positions, reversed. -/
def delete_restriction_sites (sequence : List Char) (enzymes_to_delete : List (List Char))
    (markers_db : MarkersDB) : List Char :=
  ((((sites_to_mutate sequence enzymes_to_delete markers_db).dedup).insertionSort
    (· ≤ ·)).reverse).foldl mutateBase sequence

/-- `plasmid_builder.build_mcs_sequence`: resolve each `(site_name,
enzyme_name)` pair, collect the resolved recognition sequences in order
(unresolved enzymes are skipped with a warning), and join them with the fixed
two-base spacer `"AA"`. -/
def build_mcs_sequence (mcs_sites : List (List Char × List Char)) (markers_db : MarkersDB) :
    List Char :=
  List.intercalate ("AA".toList)
    (mcs_sites.foldl (fun acc site =>
      match get_restriction_site_sequence site.2 markers_db with
      | some site_seq => acc ++ [site_seq]
      | none => acc) [])

/-- The character class `[ATCG]` as a wildcard position of a DnaA pattern. -/
def nuclAny : List Char := ['A', 'T', 'C', 'G']

/-- A literal pattern: each character matches only itself. -/
def litPat (s : List Char) : List (List Char) := s.map (fun c => [c])

/-- The six DnaA-box regexes of `ori_finder.find_dnaa_boxes`, re-expressed as
fixed-length literal-or-class patterns (each position is a set of admissible
uppercase characters). -/
def dnaa_patterns : List (List (List Char)) :=
  [litPat ("TTATCCACA".toList),
   litPat ("TTAT".toList) ++ [nuclAny] ++ litPat ("CACA".toList),
   litPat ("TTATCC".toList) ++ [nuclAny] ++ litPat ("CA".toList),
   litPat ("T".toList) ++ [nuclAny] ++ litPat ("ATCCACA".toList),
   litPat ("TTAT".toList) ++ [nuclAny, nuclAny] ++ litPat ("CACA".toList),
   litPat ("TTATCC".toList)]

/-- Position-by-position match of a class pattern against a text, modelling
`re.IGNORECASE` by uppercasing the text character. -/
def patMatch : List (List Char) → List Char → Bool
  | [], _ => true
  | _ :: _, [] => false
  | cs :: pat, c :: rest => cs.contains c.toUpper && patMatch pat rest

/-- Match of a class pattern at position `p` of `s`. -/
def matchPatAt (s : List Char) (pat : List (List Char)) (p : Nat) : Bool :=
  patMatch pat (s.drop p)

/-- The least position `p ≥ start` at which the pattern matches. -/
def patFind (s : List Char) (pat : List (List Char)) (start : Nat) : Option Nat :=
  (List.range' start (s.length + 1 - start)).find? (fun p => matchPatAt s pat p)

/-- `re.finditer` for a fixed-length pattern: scan left to right, emitting
non-overlapping matches (resume one pattern-length past each hit).  None of
the six DnaA patterns can overlap itself, so this yields every match start. -/
def finditerLoop (s : List Char) (pat : List (List Char)) : Nat → Nat → List Nat
  | _, 0 => []
  | start, fuel + 1 =>
    match patFind s pat start with
    | none => []
    | some p => p :: finditerLoop s pat (p + pat.length) fuel

/-- `sorted(set(matches))` over the match starts of all six DnaA patterns:
deduplicate, then sort ascending. -/
def dnaa_matches (sequence : List Char) : List Nat :=
  ((dnaa_patterns.flatMap
    (fun pat => finditerLoop sequence pat 0 (sequence.length + 1))).dedup).insertionSort
    (· ≤ ·)

/-- The cluster test of `find_dnaa_boxes` at window index `i`:
`cluster[-1] - cluster[0] < 500` for `cluster = matches[i:i+min_matches]`. -/
def clusterCond (ms : List Nat) (min_matches i : Nat) : Bool :=
  ((ms.drop i).take min_matches).getD (min_matches - 1) 0
    - ((ms.drop i).take min_matches).getD 0 0 < 500

/-- The clustered-run branch of `find_dnaa_boxes`: if at least `min_matches`
match positions exist, return the extended region of the first window of
`min_matches` consecutive sorted positions spanning fewer than 500 bases. -/
def clusterRegion (sequence : List Char) (min_matches : Nat) : Option (Nat × Nat) :=
  if min_matches ≤ (dnaa_matches sequence).length then
    ((List.range ((dnaa_matches sequence).length - min_matches + 1)).find?
        (fun i => clusterCond (dnaa_matches sequence) min_matches i)).map
      (fun i =>
        (max 0 ((((dnaa_matches sequence).drop i).take min_matches).getD 0 0 - 100),
         min sequence.length
           ((((dnaa_matches sequence).drop i).take min_matches).getD (min_matches - 1) 0 + 200)))
  else none

/-- `ori_finder.find_dnaa_boxes`: the clustered-run region if one exists, else
an extended region around the first match, else `none`.  (Python's `max(0, x)`
on a possibly negative int agrees with truncated `Nat` subtraction.) -/
def find_dnaa_boxes (sequence : List Char) (min_matches : Nat := 2) : Option (Nat × Nat) :=
  match clusterRegion sequence min_matches with
  | some r => some r
  | none =>
    if 1 ≤ (dnaa_matches sequence).length then
      some (max 0 ((dnaa_matches sequence).getD 0 0 - 150),
        min sequence.length ((dnaa_matches sequence).getD 0 0 + 250))
    else none

/-- One iteration of the AT-rich window scan of `find_at_rich_region`:
keep the window if its AT fraction reaches the threshold and strictly beats
the best so far. -/
def atRichStep (sequence : List Char) (window_size : Nat) (at_threshold : ℚ)
    (st : Option (Nat × Nat) × ℚ) (i : Nat) : Option (Nat × Nat) × ℚ :=
  let window := (sequence.drop i).take window_size
  let at_content : ℚ :=
    (((window.count 'A' + window.count 'T' : Nat)) : ℚ) / (window.length : ℚ)
  if at_threshold ≤ at_content ∧ st.2 < at_content then
    (some (i, i + window_size), at_content)
  else st

/-- `ori_finder.find_at_rich_region`.  `List.range (len + 1 - w)` is Python's
`range(len - w + 1)` (empty when the sequence is shorter than the window). -/
def find_at_rich_region (sequence : List Char) (window_size : Nat := 200)
    (at_threshold : ℚ := 65 / 100) : Option (Nat × Nat) :=
  ((List.range (sequence.length + 1 - window_size)).foldl
    (atRichStep sequence window_size at_threshold) (none, 0)).1

/-- `ori_finder.find_ori`: DnaA boxes, then the AT-rich window, then the
default region `[0, min(300, len))`. -/
def find_ori (sequence : List Char) : Nat × Nat × String :=
  match find_dnaa_boxes sequence with
  | some (s, e) => (s, e, "dnaa_boxes")
  | none =>
    match find_at_rich_region sequence with
    | some (s, e) => (s, e, "at_rich")
    | none => (0, min 300 sequence.length, "default")

/-! ### Searching: `find?` over `range'`, `strFind`, `findLoop` -/

theorem find?_range'_eq_some {f : ℕ → Bool} {start n p : ℕ} :
    (List.range' start n).find? f = some p ↔
      start ≤ p ∧ p < start + n ∧ f p = true ∧ ∀ q, start ≤ q → q < p → f q = false := by
  induction n generalizing start with
  | zero =>
    simp only [List.range'_zero, List.find?_nil]
    constructor
    · intro h; cases h
    · rintro ⟨h1, h2, -⟩; omega
  | succ n ih =>
    rw [List.range'_succ, List.find?_cons]
    by_cases hf : f start
    · simp only [hf]
      constructor
      · rintro ⟨rfl⟩
        exact ⟨le_refl _, by omega, hf, fun q hq hq' => absurd (lt_of_lt_of_le hq' hq) (lt_irrefl _)⟩
      · rintro ⟨h1, _, _, hmin⟩
        rcases Nat.eq_or_lt_of_le h1 with rfl | hlt
        · rfl
        · exact absurd hf (by simp [hmin start (le_refl _) hlt])
    · simp only [Bool.not_eq_true] at hf
      simp only [hf, ih]
      constructor
      · rintro ⟨h1, h2, h3, hmin⟩
        refine ⟨by omega, by omega, h3, fun q hq hq' => ?_⟩
        rcases Nat.eq_or_lt_of_le hq with rfl | hq2
        · exact hf
        · exact hmin q hq2 hq'
      · rintro ⟨h1, h2, h3, hmin⟩
        have : start ≠ p := by rintro rfl; rw [hf] at h3; cases h3
        exact ⟨by omega, by omega, h3, fun q hq hq' => hmin q (by omega) hq'⟩

theorem find?_range'_eq_none {f : ℕ → Bool} {start n : ℕ} :
    (List.range' start n).find? f = none ↔ ∀ q, start ≤ q → q < start + n → f q = false := by
  rw [List.find?_eq_none]
  constructor
  · intro h q h1 h2
    simpa using h q (List.mem_range'_1.mpr ⟨h1, h2⟩)
  · intro h q hq
    rcases List.mem_range'_1.mp hq with ⟨h1, h2⟩
    simp [h q h1 h2]

theorem isPrefixOf_length {l m : List Char} (h : l.isPrefixOf m = true) : l.length ≤ m.length := by
  induction l generalizing m with
  | nil => simp
  | cons a l ih =>
    cases m with
    | nil => simp [List.isPrefixOf] at h
    | cons b m =>
      simp only [List.isPrefixOf, Bool.and_eq_true] at h
      simpa using ih h.2

theorem isPrefixOf_cons_head {c : Char} {l m : List Char} (h : (c :: l).isPrefixOf m = true) :
    ∃ t, m = c :: t ∧ l.isPrefixOf t = true := by
  cases m with
  | nil => simp [List.isPrefixOf] at h
  | cons b m =>
    simp only [List.isPrefixOf, Bool.and_eq_true, beq_iff_eq] at h
    exact ⟨m, by rw [h.1], h.2⟩

theorem matchesAt_lt_length {hay pat : List Char} {p : ℕ} (hp : pat ≠ [])
    (h : matchesAt hay pat p = true) : p < hay.length := by
  by_contra hge
  have : hay.drop p = [] := List.drop_eq_nil_iff.mpr (by omega)
  rw [matchesAt, this] at h
  cases pat with
  | nil => exact hp rfl
  | cons c l => simp [List.isPrefixOf] at h

theorem strFind_eq_some {hay pat : List Char} {start p : ℕ} (hp : pat ≠ []) :
    strFind hay pat start = some p ↔
      start ≤ p ∧ matchesAt hay pat p = true ∧
        ∀ q, start ≤ q → q < p → matchesAt hay pat q = false := by
  rw [strFind, find?_range'_eq_some]
  constructor
  · rintro ⟨h1, _, h3, h4⟩; exact ⟨h1, h3, h4⟩
  · rintro ⟨h1, h2, h3⟩
    exact ⟨h1, by have := matchesAt_lt_length hp h2; omega, h2, h3⟩

theorem strFind_eq_none {hay pat : List Char} {start : ℕ} (hp : pat ≠ []) :
    strFind hay pat start = none ↔ ∀ q, start ≤ q → matchesAt hay pat q = false := by
  rw [strFind, find?_range'_eq_none]
  constructor
  · intro h q hq
    by_cases hql : q < start + (hay.length + 1 - start)
    · exact h q hq hql
    · by_contra hm
      have := matchesAt_lt_length hp (by simpa using hm)
      omega
  · intro h q hq _
    exact h q hq

theorem findLoop_ge {hay pat : List Char} :
    ∀ fuel start p, p ∈ findLoop hay pat start fuel → start ≤ p := by
  intro fuel
  induction fuel with
  | zero => intro start p h; simp [findLoop] at h
  | succ fuel ih =>
    intro start p h
    rw [findLoop] at h
    rcases hs : strFind hay pat start with - | pos
    · rw [hs] at h; simp at h
    · rw [hs] at h
      have hpos : start ≤ pos := by
        have := List.mem_of_find?_eq_some hs
        exact (List.mem_range'_1.mp this).1
      rcases List.mem_cons.mp h with rfl | hmem
      · exact hpos
      · have := ih (pos + 1) p hmem
        omega

theorem findLoop_pairwise {hay pat : List Char} :
    ∀ fuel start, (findLoop hay pat start fuel).Pairwise (· < ·) := by
  intro fuel
  induction fuel with
  | zero => intro start; simp [findLoop]
  | succ fuel ih =>
    intro start
    rw [findLoop]
    rcases hs : strFind hay pat start with - | pos
    · simp
    · refine List.Pairwise.cons (fun q hq => ?_) (ih (pos + 1))
      have := findLoop_ge fuel (pos + 1) q hq
      omega

theorem findLoop_mem {hay pat : List Char} (hp : pat ≠ []) :
    ∀ fuel start, hay.length + 1 - start ≤ fuel →
      ∀ p, (p ∈ findLoop hay pat start fuel ↔ start ≤ p ∧ matchesAt hay pat p = true) := by
  intro fuel
  induction fuel with
  | zero =>
    intro start hfuel p
    simp only [findLoop, List.not_mem_nil, false_iff, not_and]
    intro hsp hm
    have := matchesAt_lt_length hp hm
    omega
  | succ fuel ih =>
    intro start hfuel p
    rw [findLoop]
    rcases hs : strFind hay pat start with - | pos
    · rw [strFind_eq_none hp] at hs
      simp only [List.not_mem_nil, false_iff, not_and]
      intro hsp hm
      rw [hs p hsp] at hm
      cases hm
    · rcases (strFind_eq_some hp).mp hs with ⟨h1, h2, h3⟩
      have hposlen : pos < hay.length := matchesAt_lt_length hp h2
      rw [List.mem_cons, ih (pos + 1) (by omega) p]
      constructor
      · rintro (rfl | ⟨hp1, hp2⟩)
        · exact ⟨h1, h2⟩
        · exact ⟨by omega, hp2⟩
      · rintro ⟨hsp, hm⟩
        rcases Nat.lt_trichotomy p pos with hlt | rfl | hgt
        · rw [h3 p hsp hlt] at hm; cases hm
        · exact Or.inl rfl
        · exact Or.inr ⟨by omega, hm⟩

/-! ### Properties of the pattern lookup -/

theorem extractSiteRun_spec {text r : List Char} (h : extractSiteRun text = some r) :
    4 ≤ r.length ∧ ∀ c ∈ r, isNucl c = true := by
  induction text with
  | nil => simp [extractSiteRun] at h
  | cons c rest ih =>
    rw [extractSiteRun] at h
    split at h
    · rename_i hlen
      rcases Option.some.injEq .. ▸ h with rfl
      exact ⟨hlen, fun d hd => List.mem_takeWhile_imp hd⟩
    · exact ih h

theorem dbFind_mem {db : MarkersDB} {k : List Char} {r : MarkerRec}
    (h : dbFind db k = some r) : (k, r) ∈ db := by
  induction db with
  | nil => simp [dbFind] at h
  | cons kv rest ih =>
    rcases kv with ⟨k', v⟩
    rw [dbFind] at h
    split at h
    · rename_i heq
      rcases Option.some.injEq .. ▸ h with rfl
      exact heq ▸ List.mem_cons_self _ _
    · exact List.mem_cons_of_mem _ (ih h)

theorem ciTier_spec {db : MarkersDB} {name s : List Char} (h : ciTier db name = some s) :
    ∃ kv ∈ db, upStr kv.1 = upStr name ∧ extractSiteRun (upStr kv.2.recognition) = some s := by
  induction db with
  | nil => simp [ciTier] at h
  | cons kv rest ih =>
    rcases kv with ⟨k, v⟩
    rw [ciTier] at h
    split at h
    · rename_i hk
      split at h
      · rename_i s' hs'
        rcases Option.some.injEq .. ▸ h with rfl
        exact ⟨(k, v), List.mem_cons_self _ _, hk, hs'⟩
      · rcases ih h with ⟨kv', hmem, h1, h2⟩
        exact ⟨kv', List.mem_cons_of_mem _ hmem, h1, h2⟩
    · rcases ih h with ⟨kv', hmem, h1, h2⟩
      exact ⟨kv', List.mem_cons_of_mem _ hmem, h1, h2⟩

theorem knownFind_mem {tbl : List (List Char × List Char)} {k v : List Char}
    (h : knownFind tbl k = some v) : (k, v) ∈ tbl := by
  induction tbl with
  | nil => simp [knownFind] at h
  | cons kv rest ih =>
    rcases kv with ⟨k', v'⟩
    rw [knownFind] at h
    split at h
    · rename_i heq
      rcases Option.some.injEq .. ▸ h with rfl
      exact heq ▸ List.mem_cons_self _ _
    · exact List.mem_cons_of_mem _ (ih h)

theorem known_sites_entries : ∀ kv ∈ known_sites, 4 ≤ kv.2.length ∧ ∀ c ∈ kv.2, isNucl c = true := by
  decide

/-- Every pattern produced by the lookup is a non-empty run of the uppercase
nucleotide letters `A`, `T`, `C`, `G`. -/
theorem site_spec {name P : List Char} {db : MarkersDB}
    (h : get_restriction_site_sequence name db = some P) :
    4 ≤ P.length ∧ ∀ c ∈ P, isNucl c = true := by
  rw [get_restriction_site_sequence] at h
  split at h
  · rename_i s hs
    rcases Option.some.injEq .. ▸ h with rfl
    split at hs
    · rename_i r hr
      exact extractSiteRun_spec hs
    · cases hs
  · split at h
    · rename_i s hs
      rcases Option.some.injEq .. ▸ h with rfl
      rcases ciTier_spec hs with ⟨kv, -, -, hext⟩
      exact extractSiteRun_spec hext
    · exact known_sites_entries _ (knownFind_mem h)

theorem nucl_toUpper {c : Char} (h : isNucl c = true) : c.toUpper = c := by
  rw [isNucl] at h
  simp only [Bool.or_eq_true, decide_eq_true_eq] at h
  rcases h with ((rfl | rfl) | rfl) | rfl <;> decide

theorem site_ne_nil {name P : List Char} {db : MarkersDB}
    (h : get_restriction_site_sequence name db = some P) : P ≠ [] := by
  rcases site_spec h with ⟨hlen, -⟩
  intro hP
  rw [hP] at hlen
  simp at hlen

theorem upStr_site {name P : List Char} {db : MarkersDB}
    (h : get_restriction_site_sequence name db = some P) : upStr P = P := by
  rcases site_spec h with ⟨-, hnucl⟩
  rw [upStr]
  conv_rhs => rw [← List.map_id P]
  exact List.map_congr_left (fun c hc => nucl_toUpper (hnucl c hc))

/-! ### Characterization of `find_restriction_sites` -/

theorem find_sites_mem {S E P : List Char} {db : MarkersDB}
    (h : get_restriction_site_sequence E db = some P) (p : ℕ) :
    p ∈ find_restriction_sites S E db ↔ matchesAt (upStr S) (upStr P) p = true := by
  have hP : upStr P ≠ [] := by
    intro hu
    exact site_ne_nil h (by simpa [upStr] using hu)
  rw [find_restriction_sites, h]
  rw [findLoop_mem hP (S.length + 1) 0 (by simp [upStr]) p]
  simp

theorem find_sites_pairwise (S E : List Char) (db : MarkersDB) :
    (find_restriction_sites S E db).Pairwise (· < ·) := by
  rw [find_restriction_sites]
  split
  · simp
  · exact findLoop_pairwise _ _

/-! ### The mutation step of `delete_restriction_sites` -/

/-- The single-base substitution applied by the mutation loop, as a function
of the current character: the `if/elif` chain on the uppercased base. -/
def charMutate (c : Char) : Char :=
  if c.toUpper = 'A' then 'G'
  else if c.toUpper = 'T' then 'C'
  else if c.toUpper = 'G' then 'A'
  else if c.toUpper = 'C' then 'T'
  else c

theorem mutateBase_length (res : List Char) (pos : ℕ) :
    (mutateBase res pos).length = res.length := by
  rw [mutateBase]
  split
  · rfl
  · split
    · exact List.length_set ..
    · split
      · exact List.length_set ..
      · split
        · exact List.length_set ..
        · split
          · exact List.length_set ..
          · rfl

theorem mutateBase_oob {res : List Char} {pos : ℕ} (h : res.length ≤ pos) :
    mutateBase res pos = res := by
  rw [mutateBase, if_pos h]

theorem mutateBase_getD_ne {res : List Char} {pos j : ℕ} (h : j ≠ pos) (d : Char) :
    (mutateBase res pos).getD j d = res.getD j d := by
  have hset : ∀ c : Char, (res.set pos c).getD j d = res.getD j d := by
    intro c
    rw [List.getD_eq_getElem?_getD, List.getD_eq_getElem?_getD,
      List.getElem?_set_ne (Ne.symm h)]
  rw [mutateBase]
  split
  · rfl
  · split
    · exact hset _
    · split
      · exact hset _
      · split
        · exact hset _
        · split
          · exact hset _
          · rfl

theorem mutateBase_getD_self {res : List Char} {pos : ℕ} (h : pos < res.length) (d : Char) :
    (mutateBase res pos).getD pos d = charMutate (res.getD pos d) := by
  have hd : res.getD pos ' ' = res.getD pos d := by
    rw [List.getD_eq_getElem res ' ' h, List.getD_eq_getElem res d h]
  have hset : ∀ c : Char, (res.set pos c).getD pos d = c := by
    intro c
    rw [List.getD_eq_getElem (res.set pos c) d (by rw [List.length_set]; exact h)]
    exact List.getElem_set_self _
  rw [mutateBase, charMutate, if_neg (by omega), hd]
  split
  · rw [hset]
  · split
    · rw [hset]
    · split
      · rw [hset]
      · split
        · rw [hset]
        · rfl

theorem foldl_mutate_length (ps : List ℕ) (res : List Char) :
    (ps.foldl mutateBase res).length = res.length := by
  induction ps generalizing res with
  | nil => rfl
  | cons p ps ih => rw [List.foldl_cons, ih, mutateBase_length]

theorem foldl_mutate_getD {ps : List ℕ} (hnd : ps.Nodup) (res : List Char) (j : ℕ) (d : Char) :
    (ps.foldl mutateBase res).getD j d =
      if j ∈ ps ∧ j < res.length then charMutate (res.getD j d) else res.getD j d := by
  induction ps generalizing res with
  | nil => simp
  | cons p ps ih =>
    rcases List.nodup_cons.mp hnd with ⟨hp, hnd'⟩
    rw [List.foldl_cons, ih hnd', mutateBase_length]
    by_cases hjp : j = p
    · subst hjp
      have hnotin : j ∉ ps := hp
      simp only [hnotin, false_and, if_false, List.mem_cons, true_or, true_and]
      by_cases hlt : j < res.length
      · rw [if_pos hlt, mutateBase_getD_self hlt]
      · rw [if_neg hlt, mutateBase_oob (by omega)]
    · rw [mutateBase_getD_ne hjp d]
      simp only [List.mem_cons, hjp, false_or]

/-! ### The mutation set -/

/-- A position is marked for mutation when it is covered (full pattern width)
by some occurrence of the resolved pattern of some enzyme in the deletion
list, matching case-insensitively — the spec's description of the candidate
mutation positions. -/
def Marked (sequence : List Char) (enzymes : List (List Char)) (markers_db : MarkersDB)
    (j : ℕ) : Prop :=
  ∃ e ∈ enzymes, ∃ P, get_restriction_site_sequence e markers_db = some P ∧
    ∃ p, matchesAt (upStr sequence) (upStr P) p = true ∧ p ≤ j ∧ j < p + P.length

theorem mem_sites_to_mutate {S : List Char} {L : List (List Char)} {db : MarkersDB} {j : ℕ} :
    j ∈ sites_to_mutate S L db ↔ Marked S L db j := by
  rw [sites_to_mutate, List.mem_flatMap, Marked]
  constructor
  · rintro ⟨e, he, hj⟩
    rcases hP : get_restriction_site_sequence e db with - | P
    · rw [hP] at hj; simp at hj
    · rw [hP] at hj
      rcases List.mem_flatMap.mp hj with ⟨pos, hpos, hji⟩
      rcases List.mem_map.mp hji with ⟨i, hi, rfl⟩
      have hi' : i < P.length := List.mem_range.mp hi
      exact ⟨e, he, P, hP, pos, (find_sites_mem hP pos).mp hpos, by omega, by omega⟩
  · rintro ⟨e, he, P, hP, p, hm, hpj, hjp⟩
    refine ⟨e, he, ?_⟩
    rw [hP]
    refine List.mem_flatMap.mpr ⟨p, (find_sites_mem hP p).mpr hm, ?_⟩
    exact List.mem_map.mpr ⟨j - p, List.mem_range.mpr (by omega), by omega⟩

theorem marked_lt_length {S : List Char} {L : List (List Char)} {db : MarkersDB} {j : ℕ}
    (h : Marked S L db j) : j < S.length := by
  rcases h with ⟨e, -, P, hP, p, hm, hpj, hjp⟩
  have hlen : (upStr P).length ≤ ((upStr S).drop p).length := isPrefixOf_length hm
  have h1 : (upStr P).length = P.length := by simp [upStr]
  have h2 : ((upStr S).drop p).length = S.length - p := by simp [upStr]
  have h4 : 4 ≤ P.length := (site_spec hP).1
  omega

/-- The value of `delete_restriction_sites` at each position: marked in-range
positions are substituted through the fixed base rule, everything else is
untouched. -/
theorem delete_getD (S : List Char) (L : List (List Char)) (db : MarkersDB) (j : ℕ) (d : Char) :
    (delete_restriction_sites S L db).getD j d =
      if j ∈ sites_to_mutate S L db ∧ j < S.length then charMutate (S.getD j d)
      else S.getD j d := by
  rw [delete_restriction_sites]
  rw [foldl_mutate_getD (List.nodup_reverse.mpr
    (((List.perm_insertionSort _ _).nodup_iff).mpr (List.nodup_dedup _))) S j d]
  congr 1
  rw [eq_iff_iff]
  constructor
  · rintro ⟨hmem, hlen⟩
    exact ⟨List.mem_dedup.mp
      ((List.perm_insertionSort _ _).mem_iff.mp (List.mem_reverse.mp hmem)), hlen⟩
  · rintro ⟨hmem, hlen⟩
    exact ⟨List.mem_reverse.mpr
      ((List.perm_insertionSort _ _).mem_iff.mpr (List.mem_dedup.mpr hmem)), hlen⟩

theorem delete_length (S : List Char) (L : List (List Char)) (db : MarkersDB) :
    (delete_restriction_sites S L db).length = S.length := by
  rw [delete_restriction_sites]
  exact foldl_mutate_length _ _

/-! ### The ORI locator -/

theorem foldl_invariant {α β : Type} {P : β → Prop} (f : β → α → β) (l : List α) (init : β)
    (h0 : P init) (hstep : ∀ b a, a ∈ l → P b → P (f b a)) : P (l.foldl f init) := by
  induction l generalizing init with
  | nil => exact h0
  | cons a l ih =>
    exact ih (f init a) (hstep init a (List.mem_cons_self _ _) h0)
      (fun b a' ha' hb => hstep b a' (List.mem_cons_of_mem _ ha') hb)

theorem finditerLoop_sound {s : List Char} {pat : List (List Char)} :
    ∀ fuel start p, p ∈ finditerLoop s pat start fuel → matchPatAt s pat p = true := by
  intro fuel
  induction fuel with
  | zero => intro start p h; simp [finditerLoop] at h
  | succ fuel ih =>
    intro start p h
    rw [finditerLoop] at h
    rcases hs : patFind s pat start with - | pos
    · rw [hs] at h; simp at h
    · rw [hs] at h
      rcases List.mem_cons.mp h with rfl | hmem
      · exact List.find?_some hs
      · exact ih _ p hmem

theorem matchPatAt_lt_length {s : List Char} {pat : List (List Char)} {p : ℕ} (hp : pat ≠ [])
    (h : matchPatAt s pat p = true) : p < s.length := by
  by_contra hge
  have hdrop : s.drop p = [] := List.drop_eq_nil_iff.mpr (by omega)
  rw [matchPatAt, hdrop] at h
  cases pat with
  | nil => exact hp rfl
  | cons cs pat => simp [patMatch] at h

theorem dnaa_patterns_ne_nil : ∀ pat ∈ dnaa_patterns, pat ≠ [] := by decide

theorem dnaa_matches_lt {S : List Char} : ∀ p ∈ dnaa_matches S, p < S.length := by
  intro p hp
  rw [dnaa_matches, (List.perm_insertionSort _ _).mem_iff, List.mem_dedup] at hp
  rcases List.mem_flatMap.mp hp with ⟨pat, hpat, hmem⟩
  exact matchPatAt_lt_length (dnaa_patterns_ne_nil pat hpat) (finditerLoop_sound _ _ _ hmem)

theorem dnaa_matches_sorted (S : List Char) : (dnaa_matches S).Sorted (· ≤ ·) :=
  List.sorted_insertionSort _ _

theorem getD_drop {α : Type} (l : List α) (i k : ℕ) (d : α) :
    (l.drop i).getD k d = l.getD (i + k) d := by
  rw [List.getD_eq_getElem?_getD, List.getD_eq_getElem?_getD, List.getElem?_drop]

theorem getD_take_lt {α : Type} (l : List α) {n k : ℕ} (h : k < n) (d : α) :
    (l.take n).getD k d = l.getD k d := by
  rw [List.getD_eq_getElem?_getD, List.getD_eq_getElem?_getD, List.getElem?_take, if_pos h]

theorem cluster_getD_fst (ms : List ℕ) (i : ℕ) :
    ((ms.drop i).take 2).getD 0 0 = ms.getD i 0 := by
  rw [getD_take_lt _ (by omega), getD_drop, Nat.add_zero]

theorem cluster_getD_snd (ms : List ℕ) (i : ℕ) :
    ((ms.drop i).take 2).getD (2 - 1) 0 = ms.getD (i + 1) 0 := by
  rw [getD_take_lt _ (by omega), getD_drop]

theorem clusterCond_two (ms : List ℕ) (i : ℕ) :
    clusterCond ms 2 i = decide (ms.getD (i + 1) 0 - ms.getD i 0 < 500) := by
  rw [clusterCond, cluster_getD_fst, cluster_getD_snd]

theorem getD_lt_of_mem_lt {ms : List ℕ} {bound : ℕ} (hall : ∀ p ∈ ms, p < bound)
    {k : ℕ} (hk : k < ms.length) : ms.getD k 0 < bound := by
  rw [List.getD_eq_getElem _ _ hk]
  exact hall _ (List.getElem_mem _)

theorem getD_mono_of_sorted {ms : List ℕ} (hs : ms.Sorted (· ≤ ·)) {k : ℕ}
    (hk : k + 1 < ms.length) : ms.getD k 0 ≤ ms.getD (k + 1) 0 := by
  rw [List.getD_eq_getElem _ _ (by omega), List.getD_eq_getElem _ _ hk]
  exact List.pairwise_iff_getElem.mp hs k (k + 1) (by omega) hk (by omega)

theorem clusterRegion_eq_some {S : List Char} {j : ℕ}
    (h1 : j + 1 < (dnaa_matches S).length)
    (h2 : (dnaa_matches S).getD (j + 1) 0 - (dnaa_matches S).getD j 0 < 500)
    (h3 : ∀ i, i < j →
      ¬((dnaa_matches S).getD (i + 1) 0 - (dnaa_matches S).getD i 0 < 500)) :
    clusterRegion S 2 = some (max 0 ((dnaa_matches S).getD j 0 - 100),
      min S.length ((dnaa_matches S).getD (j + 1) 0 + 200)) := by
  have hguard : 2 ≤ (dnaa_matches S).length := by omega
  have hfind : (List.range ((dnaa_matches S).length - 2 + 1)).find?
      (fun i => clusterCond (dnaa_matches S) 2 i) = some j := by
    rw [List.range_eq_range', find?_range'_eq_some]
    refine ⟨Nat.zero_le _, by omega, ?_, ?_⟩
    · rw [clusterCond_two]; exact decide_eq_true h2
    · intro q _ hq
      rw [clusterCond_two]
      exact decide_eq_false (h3 q hq)
  rw [clusterRegion, if_pos hguard, hfind, Option.map_some']
  rw [cluster_getD_fst, cluster_getD_snd]

theorem find_dnaa_boxes_cluster {S : List Char} {j : ℕ}
    (h1 : j + 1 < (dnaa_matches S).length)
    (h2 : (dnaa_matches S).getD (j + 1) 0 - (dnaa_matches S).getD j 0 < 500)
    (h3 : ∀ i, i < j →
      ¬((dnaa_matches S).getD (i + 1) 0 - (dnaa_matches S).getD i 0 < 500)) :
    find_dnaa_boxes S = some (max 0 ((dnaa_matches S).getD j 0 - 100),
      min S.length ((dnaa_matches S).getD (j + 1) 0 + 200)) := by
  rw [find_dnaa_boxes, clusterRegion_eq_some h1 h2 h3]

theorem find_dnaa_boxes_bounds {S : List Char} {s e : ℕ}
    (h : find_dnaa_boxes S = some (s, e)) : s < e ∧ e ≤ S.length := by
  rw [find_dnaa_boxes] at h
  rcases hcr : clusterRegion S 2 with - | r
  · rw [hcr] at h
    replace h : (if 1 ≤ (dnaa_matches S).length then
        some (max 0 ((dnaa_matches S).getD 0 0 - 150),
          min S.length ((dnaa_matches S).getD 0 0 + 250))
      else none) = some (s, e) := h
    by_cases hone : 1 ≤ (dnaa_matches S).length
    · rw [if_pos hone] at h
      injection h with h'
      rw [Prod.ext_iff] at h'
      obtain ⟨hs, he⟩ := h'
      subst hs; subst he
      have hm : (dnaa_matches S).getD 0 0 < S.length :=
        getD_lt_of_mem_lt dnaa_matches_lt (by omega)
      refine ⟨?_, min_le_left _ _⟩
      rw [max_eq_right (Nat.zero_le _)]
      exact lt_min (by omega) (by omega)
    · rw [if_neg hone] at h
      cases h
  · rw [hcr] at h
    replace h : some r = some (s, e) := h
    injection h with h'
    subst h'
    rw [clusterRegion] at hcr
    by_cases hguard : 2 ≤ (dnaa_matches S).length
    · rw [if_pos hguard] at hcr
      rcases hfind : (List.range ((dnaa_matches S).length - 2 + 1)).find?
          (fun i => clusterCond (dnaa_matches S) 2 i) with - | i
      · rw [hfind, Option.map_none'] at hcr
        cases hcr
      · rw [hfind, Option.map_some'] at hcr
        injection hcr with hcr'
        rw [Prod.ext_iff] at hcr'
        obtain ⟨hs, he⟩ := hcr'
        subst hs; subst he
        rw [cluster_getD_fst, cluster_getD_snd]
        have hi : i < (dnaa_matches S).length - 2 + 1 :=
          List.mem_range.mp (List.mem_of_find?_eq_some hfind)
        have h1 : (dnaa_matches S).getD (i + 1) 0 < S.length :=
          getD_lt_of_mem_lt dnaa_matches_lt (by omega)
        have hle : (dnaa_matches S).getD i 0 ≤ (dnaa_matches S).getD (i + 1) 0 :=
          getD_mono_of_sorted (dnaa_matches_sorted S) (by omega)
        refine ⟨?_, min_le_left _ _⟩
        rw [max_eq_right (Nat.zero_le _)]
        exact lt_min (by omega) (by omega)
    · rw [if_neg hguard] at hcr
      cases hcr

theorem find_at_rich_region_bounds {S : List Char} {ws : ℕ} {th : ℚ} {s e : ℕ}
    (hws : 0 < ws) (h : find_at_rich_region S ws th = some (s, e)) :
    s < e ∧ e ≤ S.length := by
  rw [find_at_rich_region] at h
  have hinv := foldl_invariant
    (P := fun st : Option (ℕ × ℕ) × ℚ => ∀ a b, st.1 = some (a, b) → a < b ∧ b ≤ S.length)
    (atRichStep S ws th) (List.range (S.length + 1 - ws)) (none, (0 : ℚ))
    (by intro a b hab; cases hab) ?_
  · exact hinv s e h
  · intro st i hi hst a b hab
    have hi' : i < S.length + 1 - ws := List.mem_range.mp hi
    rw [atRichStep] at hab
    split at hab
    · rcases Prod.mk.injEq .. ▸ Option.some.injEq .. ▸ hab with ⟨rfl, rfl⟩
      exact ⟨by omega, by omega⟩
    · exact hst a b hab

/-! ### Further helpers for the claims -/

theorem upStr_getD {S : List Char} {p : ℕ} (h : p < S.length) :
    (upStr S).getD p ' ' = (S.getD p ' ').toUpper := by
  rw [upStr, List.getD_eq_getElem _ _ (by simpa using h), List.getD_eq_getElem _ _ h,
    List.getElem_map]

theorem matchesAt_head {hay : List Char} {c : Char} {P0 : List Char} {p : ℕ}
    (h : matchesAt hay (c :: P0) p = true) : hay.getD p ' ' = c := by
  rw [matchesAt] at h
  rcases isPrefixOf_cons_head h with ⟨t, ht, -⟩
  have h0 := getD_drop hay p 0 ' '
  rw [ht] at h0
  simpa using h0.symm

theorem charMutate_toUpper_ne {x c : Char} (hc : isNucl c = true) (h : x.toUpper = c) :
    (charMutate x).toUpper ≠ c := by
  rw [isNucl] at hc
  simp only [Bool.or_eq_true, decide_eq_true_eq] at hc
  rcases hc with ((rfl | rfl) | rfl) | rfl
  · rw [charMutate, if_pos h]; decide
  · rw [charMutate, if_neg (by rw [h]; decide), if_pos h]; decide
  · rw [charMutate, if_neg (by rw [h]; decide), if_neg (by rw [h]; decide),
      if_neg (by rw [h]; decide), if_pos h]; decide
  · rw [charMutate, if_neg (by rw [h]; decide), if_neg (by rw [h]; decide), if_pos h]; decide

/-- The unresolved case of the lookup: when no key of the database matches the
name even case-insensitively with a minable recognition text, and the
uppercased name is not in the built-in table, the lookup yields nothing. -/
theorem lookup_none_of_unresolvable {name : List Char} {db : MarkersDB}
    (h1 : ∀ kv ∈ db, upStr kv.1 = upStr name → extractSiteRun (upStr kv.2.recognition) = none)
    (h2 : knownFind known_sites (upStr name) = none) :
    get_restriction_site_sequence name db = none := by
  have hexact : (match dbFind db name with
      | some r => extractSiteRun (upStr r.recognition)
      | none => none) = none := by
    rcases hdb : dbFind db name with - | r
    · rfl
    · exact h1 (name, r) (dbFind_mem hdb) rfl
  have hci : ciTier db name = none := by
    rcases hc : ciTier db name with - | s
    · rfl
    · rcases ciTier_spec hc with ⟨kv, hmem, hk, hext⟩
      rw [h1 kv hmem hk] at hext
      cases hext
  rw [get_restriction_site_sequence, hexact, hci, h2]

theorem foldl_resolve_eq_filterMap (db : MarkersDB) (sites : List (List Char × List Char))
    (acc : List (List Char)) :
    sites.foldl (fun acc site =>
        match get_restriction_site_sequence site.2 db with
        | some site_seq => acc ++ [site_seq]
        | none => acc) acc =
      acc ++ sites.filterMap (fun site => get_restriction_site_sequence site.2 db) := by
  induction sites generalizing acc with
  | nil => simp
  | cons site rest ih =>
    rw [List.foldl_cons, List.filterMap_cons]
    rcases h : get_restriction_site_sequence site.2 db with - | s
    · simp only [h, ih]
    · simp only [h, ih, List.append_assoc, List.singleton_append]

/-- The fixed base remap that the spec describes for marked positions
(`A→G`, `T→C`, `G→A`, `C→T`); written from the spec's words, to be compared
with the code's `mutateBase`/`charMutate` chain. -/
def remapSpec (c : Char) : Char :=
  if c = 'A' then 'G'
  else if c = 'T' then 'C'
  else if c = 'G' then 'A'
  else if c = 'C' then 'T'
  else c

theorem charMutate_eq_remapSpec_of_base {c : Char}
    (h : c = 'A' ∨ c = 'C' ∨ c = 'G' ∨ c = 'T') : charMutate c = remapSpec c := by
  rcases h with rfl | rfl | rfl | rfl <;> decide

/-! ### Concrete inputs used by counterexamples and witnesses -/

/-- A database with one enzyme `X` whose recognition text mines to `GGAA`. -/
def db0 : MarkersDB :=
  [("X".toList, ⟨"Restriction enzyme".toList, "X".toList, "GGAA".toList⟩)]

/-- A database entry for EcoRI with the recognition text from the spec. -/
def dbEco : MarkersDB :=
  [("EcoRI".toList, ⟨"Restriction enzyme".toList, "EcoRI".toList,
    "Recognizes GAATTC, 5\x27 overhangs".toList⟩)]

/-- A database whose single entry has no minable run of four nucleotides. -/
def db1 : MarkersDB :=
  [("ecoQ".toList, ⟨"Restriction enzyme".toList, "ecoQ".toList,
    "cuts at GC pairs".toList⟩)]

/-- Two DnaA boxes (positions 0 and 20) separated by a run of `G`s. -/
def seqTwoBoxes : List Char :=
  ("TTATCCACA".toList) ++ ("GGGGGGGGGGG".toList) ++ ("TTATCCACA".toList)

/-! ### The claims -/

/-- C1 (counterexample): the claim is false as stated.  With a database
resolving enzyme `X` to the pattern `GGAA`, deleting `X`-sites from
`"GGAAAA"` yields `"AAGGAA"`, in which `find_restriction_sites` again finds
the pattern (at position 2), so the result is not the empty list. -/
theorem claim1_counterexample :
    find_restriction_sites
      (delete_restriction_sites ("GGAAAA".toList) [("X".toList)] db0)
      ("X".toList) db0 ≠ [] := by
  decide

/-- C1 (amended): after `delete_restriction_sites(S, [E], db)` none of the
*original* occurrence positions of the resolved pattern `P` is reported by
`find_restriction_sites` on the mutated sequence — every base of every
occurrence is substituted by a different base — although mutation may create
occurrences at new positions, so the result need not be empty. -/
theorem claim1_amended (S E : List Char) (db : MarkersDB) (P : List Char)
    (hP : get_restriction_site_sequence E db = some P) (p : ℕ)
    (hp : p ∈ find_restriction_sites S E db) :
    p ∉ find_restriction_sites (delete_restriction_sites S [E] db) E db := by
  intro hp'
  have hup : upStr P = P := upStr_site hP
  rcases hPc : P with - | ⟨c, P0⟩
  · exact site_ne_nil hP hPc
  have hmm : matchesAt (upStr S) (c :: P0) p = true := by
    have h := (find_sites_mem hP p).mp hp
    rw [hup, hPc] at h
    exact h
  have hplen : p < S.length := by
    have h := matchesAt_lt_length (List.cons_ne_nil _ _) hmm
    simpa [upStr] using h
  have hmm' : matchesAt (upStr (delete_restriction_sites S [E] db)) (c :: P0) p = true := by
    have h := (find_sites_mem hP p).mp hp'
    rw [hup, hPc] at h
    exact h
  have hSp : (S.getD p ' ').toUpper = c := by
    rw [← upStr_getD hplen]
    exact matchesAt_head hmm
  have hS'p : ((delete_restriction_sites S [E] db).getD p ' ').toUpper = c := by
    rw [← upStr_getD (by rw [delete_length]; exact hplen)]
    exact matchesAt_head hmm'
  have hmark : p ∈ sites_to_mutate S [E] db := by
    refine mem_sites_to_mutate.mpr ⟨E, List.mem_singleton.mpr rfl, P, hP, p, ?_, le_refl p, ?_⟩
    · rw [hup, hPc]; exact hmm
    · have h4 := (site_spec hP).1
      omega
  have hdel : (delete_restriction_sites S [E] db).getD p ' ' = charMutate (S.getD p ' ') := by
    rw [delete_getD, if_pos ⟨hmark, hplen⟩]
  have hcn : isNucl c = true := by
    refine (site_spec hP).2 c ?_
    rw [hPc]
    exact List.mem_cons_self _ _
  rw [hdel] at hS'p
  exact charMutate_toUpper_ne hcn hSp hS'p

/-- C1 (amended, witness): concrete instance with `S = "GGAAAA"`, `E = "X"`,
`P = "GGAA"`, original occurrence at position 0. -/
theorem claim1_amended_witness :
    get_restriction_site_sequence ("X".toList) db0 = some ("GGAA".toList) ∧
    0 ∈ find_restriction_sites ("GGAAAA".toList) ("X".toList) db0 ∧
    0 ∉ find_restriction_sites
      (delete_restriction_sites ("GGAAAA".toList) [("X".toList)] db0) ("X".toList) db0 :=
  ⟨by decide, by decide,
    claim1_amended ("GGAAAA".toList) ("X".toList) db0 ("GGAA".toList) (by decide) 0
      (by decide)⟩

/-- C2: `delete_restriction_sites` never changes the length of the sequence,
for arbitrary input strings, enzyme lists and databases. -/
theorem claim2_delete_preserves_length (S : List Char) (L : List (List Char))
    (db : MarkersDB) : (delete_restriction_sites S L db).length = S.length :=
  delete_length S L db

/-- C3 (counterexample): on the empty sequence `find_ori` returns the
degenerate region `(0, 0, "default")`, violating the claimed invariant
`start < end`. -/
theorem claim3_counterexample : ¬((find_ori []).1 < (find_ori []).2.1) := by
  decide

/-- C3 (amended): for every non-empty sequence, `find_ori` returns a triple
whose method tag is one of the three advertised tags and whose region
satisfies `start < end ≤ len`; on the empty sequence the region degenerates
to `(0, 0)` (see the counterexample). -/
theorem claim3_amended (S : List Char) (h : S ≠ []) :
    ((find_ori S).2.2 = "dnaa_boxes" ∨ (find_ori S).2.2 = "at_rich" ∨
      (find_ori S).2.2 = "default") ∧
    (find_ori S).1 < (find_ori S).2.1 ∧ (find_ori S).2.1 ≤ S.length := by
  rcases hd : find_dnaa_boxes S with - | ⟨ds, de⟩
  · rcases ha : find_at_rich_region S with - | ⟨rs, re⟩
    · rw [find_ori, hd, ha]
      exact ⟨Or.inr (Or.inr rfl),
        lt_min (by norm_num) (List.length_pos.mpr h), min_le_right _ _⟩
    · obtain ⟨h1, h2⟩ := find_at_rich_region_bounds (by norm_num) ha
      rw [find_ori, hd, ha]
      exact ⟨Or.inr (Or.inl rfl), h1, h2⟩
  · obtain ⟨h1, h2⟩ := find_dnaa_boxes_bounds hd
    rw [find_ori, hd]
    exact ⟨Or.inl rfl, h1, h2⟩

/-- C3 (amended, witness): the single-character sequence `"G"`. -/
theorem claim3_amended_witness :
    ("G".toList ≠ ([] : List Char)) ∧
    (((find_ori ("G".toList)).2.2 = "dnaa_boxes" ∨
      (find_ori ("G".toList)).2.2 = "at_rich" ∨
      (find_ori ("G".toList)).2.2 = "default") ∧
     (find_ori ("G".toList)).1 < (find_ori ("G".toList)).2.1 ∧
     (find_ori ("G".toList)).2.1 ≤ ("G".toList).length) :=
  ⟨by decide, claim3_amended _ (by decide)⟩

/-- C4: for a resolvable enzyme, `find_restriction_sites` returns a strictly
ascending list containing exactly the positions where the pattern matches the
sequence case-insensitively, overlapping occurrences included; and the scan
loop on pattern `"AA"` over `"AAA"` (with the fuel used by
`find_restriction_sites`) yields `[0, 1]`. -/
theorem claim4_find_sites_spec :
    (∀ (S E : List Char) (db : MarkersDB) (P : List Char),
      get_restriction_site_sequence E db = some P →
        (find_restriction_sites S E db).Pairwise (· < ·) ∧
        ∀ p, p ∈ find_restriction_sites S E db ↔
          matchesAt (upStr S) (upStr P) p = true) ∧
    findLoop ("AAA".toList) ("AA".toList) 0 (("AAA".toList).length + 1) = [0, 1] := by
  constructor
  · intro S E db P hP
    exact ⟨find_sites_pairwise S E db, fun p => find_sites_mem hP p⟩
  · decide

/-- C4 (witness): EcoRI on `"ATCGGAATTCATCG"` through the built-in table. -/
theorem claim4_witness :
    (find_restriction_sites ("ATCGGAATTCATCG".toList) ("EcoRI".toList) []).Pairwise
      (· < ·) ∧
    ∀ p, p ∈ find_restriction_sites ("ATCGGAATTCATCG".toList) ("EcoRI".toList) [] ↔
      matchesAt (upStr ("ATCGGAATTCATCG".toList)) (upStr ("GAATTC".toList)) p = true :=
  claim4_find_sites_spec.1 _ _ _ _ (by decide)

/-- C5: on sequences of uppercase `A`/`C`/`G`/`T`, every position covered by
an occurrence of a resolvable enzyme's pattern (the union over the enzyme
list) is substituted by the fixed remap `A→G, T→C, G→A, C→T`, and every other
position is unchanged. -/
theorem claim5_mutation_frame (S : List Char) (L : List (List Char)) (db : MarkersDB)
    (hS : ∀ c ∈ S, c = 'A' ∨ c = 'C' ∨ c = 'G' ∨ c = 'T') (j : ℕ) (hj : j < S.length) :
    (Marked S L db j →
      (delete_restriction_sites S L db).getD j ' ' = remapSpec (S.getD j ' ')) ∧
    (¬Marked S L db j →
      (delete_restriction_sites S L db).getD j ' ' = S.getD j ' ') := by
  have hc : S.getD j ' ' ∈ S := by
    rw [List.getD_eq_getElem _ _ hj]
    exact List.getElem_mem _
  constructor
  · intro hm
    rw [delete_getD, if_pos ⟨mem_sites_to_mutate.mpr hm, hj⟩,
      charMutate_eq_remapSpec_of_base (hS _ hc)]
  · intro hm
    rw [delete_getD, if_neg (fun hcon => hm (mem_sites_to_mutate.mp hcon.1))]

/-- C5 (witness): position 0 of `"GGAAAA"` with enzyme `X ↦ GGAA`. -/
theorem claim5_witness :
    (∀ c ∈ ("GGAAAA".toList), c = 'A' ∨ c = 'C' ∨ c = 'G' ∨ c = 'T') ∧
    ((Marked ("GGAAAA".toList) [("X".toList)] db0 0 →
      (delete_restriction_sites ("GGAAAA".toList) [("X".toList)] db0).getD 0 ' ' =
        remapSpec (("GGAAAA".toList).getD 0 ' ')) ∧
     (¬Marked ("GGAAAA".toList) [("X".toList)] db0 0 →
      (delete_restriction_sites ("GGAAAA".toList) [("X".toList)] db0).getD 0 ' ' =
        ("GGAAAA".toList).getD 0 ' ')) :=
  ⟨by decide, claim5_mutation_frame _ _ _ (by decide) 0 (by decide)⟩

/-- C6: whenever the sorted deduplicated DnaA match positions contain two
consecutive entries less than 500 apart, `find_ori` reports method
`"dnaa_boxes"` with the region `[max(0, p − 100), min(len, q + 200))` built
from the earliest such pair `(p, q)`. -/
theorem claim6_dnaa_cluster (S : List Char) (j : ℕ)
    (h1 : j + 1 < (dnaa_matches S).length)
    (h2 : (dnaa_matches S).getD (j + 1) 0 - (dnaa_matches S).getD j 0 < 500)
    (h3 : ∀ i, i < j →
      ¬((dnaa_matches S).getD (i + 1) 0 - (dnaa_matches S).getD i 0 < 500)) :
    find_ori S = (max 0 ((dnaa_matches S).getD j 0 - 100),
      min S.length ((dnaa_matches S).getD (j + 1) 0 + 200), "dnaa_boxes") := by
  rw [find_ori, find_dnaa_boxes_cluster h1 h2 h3]

/-- C6 (witness): two DnaA boxes at positions 0 and 20 of a 29-base sequence;
the earliest qualifying pair is `(0, 20)` and the region is `[0, 29)`. -/
theorem claim6_witness :
    0 + 1 < (dnaa_matches seqTwoBoxes).length ∧
    (dnaa_matches seqTwoBoxes).getD 1 0 - (dnaa_matches seqTwoBoxes).getD 0 0 < 500 ∧
    find_ori seqTwoBoxes = (max 0 ((dnaa_matches seqTwoBoxes).getD 0 0 - 100),
      min seqTwoBoxes.length ((dnaa_matches seqTwoBoxes).getD (0 + 1) 0 + 200),
      "dnaa_boxes") :=
  ⟨by decide, by decide,
    claim6_dnaa_cluster seqTwoBoxes 0 (by decide) (by decide)
      (fun i hi => absurd hi (Nat.not_lt_zero i))⟩

/-- C7: when no database key matches the enzyme name (even case-insensitively
with a minable recognition text) and the uppercased name is not in the
built-in table, `find_restriction_sites` returns the empty list rather than
failing. -/
theorem claim7_unresolvable (S E : List Char) (db : MarkersDB)
    (h1 : ∀ kv ∈ db, upStr kv.1 = upStr E → extractSiteRun (upStr kv.2.recognition) = none)
    (h2 : knownFind known_sites (upStr E) = none) :
    find_restriction_sites S E db = [] := by
  rw [find_restriction_sites, lookup_none_of_unresolvable h1 h2]

/-- C7 (witness): enzyme name `"EcoQ"` matches the key `"ecoQ"` of `db1` only
case-insensitively, its recognition text has no run of four nucleotides, and
`"ECOQ"` is not built in, so the search returns `[]`. -/
theorem claim7_witness :
    (∀ kv ∈ db1, upStr kv.1 = upStr ("EcoQ".toList) →
      extractSiteRun (upStr kv.2.recognition) = none) ∧
    knownFind known_sites (upStr ("EcoQ".toList)) = none ∧
    find_restriction_sites ("GGAAGAATTC".toList) ("EcoQ".toList) db1 = [] :=
  ⟨by decide, by decide, claim7_unresolvable _ _ _ (by decide) (by decide)⟩

/-- C8: a database entry `EcoRI` whose recognition text is
`"Recognizes GAATTC, 5' overhangs"` resolves to exactly `"GAATTC"`; and any
name with no exact or case-insensitive database resolution and no built-in
entry resolves to nothing (`None`). -/
theorem claim8_lookup :
    get_restriction_site_sequence ("EcoRI".toList) dbEco = some ("GAATTC".toList) ∧
    (∀ (name : List Char) (db : MarkersDB),
      (∀ kv ∈ db, upStr kv.1 = upStr name →
        extractSiteRun (upStr kv.2.recognition) = none) →
      knownFind known_sites (upStr name) = none →
      get_restriction_site_sequence name db = none) := by
  constructor
  · decide
  · intro name db h1 h2
    exact lookup_none_of_unresolvable h1 h2

/-- C8 (witness): the name `"nosuch"` against the EcoRI database. -/
theorem claim8_witness :
    (∀ kv ∈ dbEco, upStr kv.1 = upStr ("nosuch".toList) →
      extractSiteRun (upStr kv.2.recognition) = none) ∧
    knownFind known_sites (upStr ("nosuch".toList)) = none ∧
    get_restriction_site_sequence ("nosuch".toList) dbEco = none :=
  ⟨by decide, by decide, claim8_lookup.2 _ _ (by decide) (by decide)⟩

/-- C9: `build_mcs_sequence` is exactly the `"AA"`-spacered concatenation of
the recognition sequences of the resolvable enzymes in input order
(unresolvable ones contribute nothing); in particular BamHI and EcoRI give
`"GGATCC" ++ "AA" ++ "GAATTC"`. -/
theorem claim9_build_mcs :
    (∀ (mcs_sites : List (List Char × List Char)) (db : MarkersDB),
      build_mcs_sequence mcs_sites db =
        List.intercalate ("AA".toList)
          (mcs_sites.filterMap (fun site => get_restriction_site_sequence site.2 db))) ∧
    build_mcs_sequence
        [("BamHI_site".toList, "BamHI".toList), ("EcoRI_site".toList, "EcoRI".toList)]
        [] =
      ("GGATCC".toList) ++ ("AA".toList) ++ ("GAATTC".toList) := by
  constructor
  · intro sites db
    rw [build_mcs_sequence, foldl_resolve_eq_filterMap, List.nil_append]
  · decide

/-- C10: a character whose uppercase form is not one of `A`, `T`, `G`, `C`
(e.g. `N` or `-`) is left completely unchanged by `delete_restriction_sites`,
which silently skips it instead of erroring. -/
theorem claim10_nonbase_unchanged (S : List Char) (L : List (List Char)) (db : MarkersDB)
    (j : ℕ) (_hj : j < S.length)
    (hc : ¬((S.getD j ' ').toUpper = 'A' ∨ (S.getD j ' ').toUpper = 'T' ∨
      (S.getD j ' ').toUpper = 'G' ∨ (S.getD j ' ').toUpper = 'C')) :
    (delete_restriction_sites S L db).getD j ' ' = S.getD j ' ' := by
  push_neg at hc
  obtain ⟨h1, h2, h3, h4⟩ := hc
  rw [delete_getD]
  split
  · rw [charMutate, if_neg h1, if_neg h2, if_neg h3, if_neg h4]
  · rfl

/-- C10 (witness): the `N` at position 0 of `"NN-aNtGgGAATTCxx"` survives the
deletion of the EcoRI site unchanged. -/
theorem claim10_witness :
    0 < ("NN-aNtGgGAATTCxx".toList).length ∧
    ¬((("NN-aNtGgGAATTCxx".toList).getD 0 ' ').toUpper = 'A' ∨
      (("NN-aNtGgGAATTCxx".toList).getD 0 ' ').toUpper = 'T' ∨
      (("NN-aNtGgGAATTCxx".toList).getD 0 ' ').toUpper = 'G' ∨
      (("NN-aNtGgGAATTCxx".toList).getD 0 ' ').toUpper = 'C') ∧
    (delete_restriction_sites ("NN-aNtGgGAATTCxx".toList) [("EcoRI".toList)] []).getD 0 ' ' =
      ("NN-aNtGgGAATTCxx".toList).getD 0 ' ' :=
  ⟨by decide, by decide,
    claim10_nonbase_unchanged _ [("EcoRI".toList)] [] 0 (by decide) (by decide)⟩

end PlasmidMaker
